import Mathlib

/-!
Verification of the voice-command move parser of the xchess repository
(`src/ts/voice/MoveParser.ts`) and the spoken-phrase formatter
(`src/ts/voice/TTSConfirmation.ts`).

Strings are modelled as `List Char`.  JavaScript semantics that matter here
are modelled explicitly:

* `homophones[word] || word` — an empty-string table value is falsy in
  JavaScript, so the `||` falls back to the original word; see `substTok`.
* `pieceSymbols[match[1]] || match[1].toUpperCase()` — same falsiness; see
  `pieceOf`.
* `if (result.san)` — truthiness of a `string | null`; see `jsTruthy`.
* `toLowerCase`/`toUpperCase` are modelled on the ASCII range (the only
  range the tables and regexes touch).
* Confidence numbers are modelled as rationals.
-/

/-- Association-list lookup used to model JavaScript object-literal tables. -/
def findPair {α β : Type} [DecidableEq α] (k : α) : List (α × β) → Option β
  | [] => none
  | (k2, v) :: rest => if k = k2 then some v else findPair k rest

/-- ASCII uppercase-to-lowercase table, modelling `String.prototype.toLowerCase`
on the characters this component manipulates. -/
def ucPairs : List (Char × Char) :=
  [('A', 'a'), ('B', 'b'), ('C', 'c'), ('D', 'd'), ('E', 'e'), ('F', 'f'),
   ('G', 'g'), ('H', 'h'), ('I', 'i'), ('J', 'j'), ('K', 'k'), ('L', 'l'),
   ('M', 'm'), ('N', 'n'), ('O', 'o'), ('P', 'p'), ('Q', 'q'), ('R', 'r'),
   ('S', 's'), ('T', 't'), ('U', 'u'), ('V', 'v'), ('W', 'w'), ('X', 'x'),
   ('Y', 'y'), ('Z', 'z')]

/-- ASCII lowercase-to-uppercase table, modelling `String.prototype.toUpperCase`. -/
def lcPairs : List (Char × Char) :=
  [('a', 'A'), ('b', 'B'), ('c', 'C'), ('d', 'D'), ('e', 'E'), ('f', 'F'),
   ('g', 'G'), ('h', 'H'), ('i', 'I'), ('j', 'J'), ('k', 'K'), ('l', 'L'),
   ('m', 'M'), ('n', 'N'), ('o', 'O'), ('p', 'P'), ('q', 'Q'), ('r', 'R'),
   ('s', 'S'), ('t', 'T'), ('u', 'U'), ('v', 'V'), ('w', 'W'), ('x', 'X'),
   ('y', 'Y'), ('z', 'Z')]

def jsToLower (c : Char) : Char :=
  match findPair c ucPairs with
  | some l => l
  | none => c

def jsToUpper (c : Char) : Char :=
  match findPair c lcPairs with
  | some u => u
  | none => c

/-- The regex character class `\w` = `[A-Za-z0-9_]`. -/
def isWordChar (c : Char) : Bool :=
  ('a' ≤ c && c ≤ 'z') || ('A' ≤ c && c ≤ 'Z') || ('0' ≤ c && c ≤ '9') || c = '_'

/-- The regex character class `\s` (modelled on its ASCII members). -/
def isSpaceChar (c : Char) : Bool :=
  c = ' ' || c = '\t' || c = '\n' || c = '\r' || c = '\x0b' || c = '\x0c'

def isFileChar (c : Char) : Bool := 'a' ≤ c && c ≤ 'h'

def isRankChar (c : Char) : Bool := '1' ≤ c && c ≤ '8'

/-! ## Vocabulary tables (`MoveParser.homophones`, `MoveParser.pieceSymbols`) -/

def homophonesS : List (String × String) :=
  [("won", "1"), ("one", "1"),
   ("to", "2"), ("too", "2"), ("two", "2"),
   ("three", "3"), ("tree", "3"),
   ("for", "4"), ("four", "4"), ("fore", "4"),
   ("five", "5"), ("fife", "5"),
   ("six", "6"), ("sick", "6"),
   ("seven", "7"),
   ("ate", "8"), ("eight", "8"),
   ("a", "a"), ("ay", "a"),
   ("be", "b"), ("bee", "b"),
   ("see", "c"), ("sea", "c"),
   ("dee", "d"),
   ("e", "e"), ("ee", "e"),
   ("f", "f"), ("ef", "f"),
   ("g", "g"), ("gee", "g"),
   ("h", "h"), ("aitch", "h"),
   ("night", "knight"), ("nite", "knight"),
   ("king", "king"), ("k", "king"),
   ("queen", "queen"), ("q", "queen"),
   ("rook", "rook"), ("castle", "rook"), ("tower", "rook"),
   ("bishop", "bishop"), ("b", "bishop"),
   ("pawn", "pawn"), ("p", "pawn"), ("pond", "pawn"),
   ("takes", "takes"), ("take", "takes"), ("captures", "takes"), ("capture", "takes"),
   ("x", "takes"), ("cross", "takes"), ("times", "takes"),
   ("check", "check"), ("checkmate", "checkmate"), ("mate", "checkmate"),
   ("castles", "castle"),
   ("short", "short"), ("king side", "short"), ("kingside", "short"),
   ("long", "long"), ("queen side", "long"), ("queenside", "long"),
   ("move", ""), ("moves", ""), ("go", ""), ("goes", ""),
   ("the", ""), ("an", ""),
   ("piece", ""), ("pieces", "")]

def homophones : List (List Char × List Char) :=
  homophonesS.map (fun p => (p.1.toList, p.2.toList))

def pieceSymbolsS : List (String × String) :=
  [("king", "K"), ("queen", "Q"), ("rook", "R"), ("bishop", "B"),
   ("knight", "N"), ("pawn", "")]

def pieceSymbols : List (List Char × List Char) :=
  pieceSymbolsS.map (fun p => (p.1.toList, p.2.toList))

/-! ## Normalization pipeline (`MoveParser.cleanTranscript`) -/

/-- One character of `.replace(/[^\w\s]/g, ' ')`. -/
def replaceChar (c : Char) : Char :=
  if isWordChar c || isSpaceChar c then c else ' '

def replaceNonWord (l : List Char) : List Char := l.map replaceChar

/-- Split at every whitespace character, keeping empty pieces.  JavaScript's
`split(/\s+/)` collapses whitespace runs and keeps only boundary empty
strings; the two differ only in empty pieces, all of which are discarded by
the `filter` of `cleanTokens` below (`substTok` maps `[]` to `[]`), so the
normalized output is the same. -/
def splitAllSp : List Char → List (List Char)
  | [] => [[]]
  | c :: l =>
    match splitAllSp l with
    | p :: ps => if isSpaceChar c then [] :: p :: ps else (c :: p) :: ps
    | [] => if isSpaceChar c then [[], []] else [[c]]

/-- `this.homophones[word] || word` — an empty-string table value is falsy,
so the original word survives (the stop-word entries of the table are
therefore inert). -/
def substTok (w : List Char) : List Char :=
  match findPair w homophones with
  | some v => if v = [] then w else v
  | none => w

def cleanTokens (l : List Char) : List (List Char) :=
  ((splitAllSp (replaceNonWord (l.map jsToLower))).map substTok).filter
    (fun w => !w.isEmpty)

/-- `Array.prototype.join(' ')`. -/
def joinSp : List (List Char) → List Char
  | [] => []
  | [w] => w
  | w :: v :: vs => w ++ ' ' :: joinSp (v :: vs)

def cleanTranscriptL (l : List Char) : List Char := joinSp (cleanTokens l)

def cleanTranscript (s : String) : String := ⟨cleanTranscriptL s.data⟩

/-! ## Data model (`ChessMoveResult`, `ParseContext`) -/

inductive PlayerColor
  | white
  | black
deriving DecidableEq, Repr

structure ParseContext where
  currentFEN : List Char
  legalMoves : List (List Char)
  lastMove : Option (List Char)
  playerColor : PlayerColor
deriving DecidableEq, Repr

structure ChessMoveResult where
  san : Option (List Char)
  confidence : ℚ
  originalText : List Char
  error : Option (List Char)
deriving DecidableEq, Repr

/-- Truthiness of a `string | null` value, as tested by `if (result.san)`:
`null` and the empty string are falsy. -/
def jsTruthy : Option (List Char) → Bool
  | none => false
  | some s => !s.isEmpty

/-! ## Regex matchers of `parseStandardMove`

The three anchored patterns are hand-compiled.  Alternations whose branches
start with distinct mandatory characters (`2`/`takes`, `takes`/`x`, the six
piece names) are deterministic; greedy `\s*`/`\s+` are deterministic because
the following atoms never start with whitespace; the remaining optional
groups are compiled with an explicit fallback, in the engine's order. -/

/-- Match a literal at the head of the input; return the rest. -/
def chopLead : List Char → List Char → Option (List Char)
  | [], s => some s
  | _ :: _, [] => none
  | a :: ps, b :: ss => if a = b then chopLead ps ss else none

/-- `([a-h][1-8])` -/
def matchSquare : List Char → Option (Char × Char × List Char)
  | a :: b :: rest =>
      if isFileChar a && isRankChar b then some (a, b, rest) else none
  | _ => none

/-- `(?:\s+(check|checkmate))?$` after the destination square: either the
input ends, or a whitespace run is followed by exactly `check` or
`checkmate`.  Returns the captured group. -/
def tailCheck (r : List Char) : Option (Option (List Char)) :=
  match r with
  | [] => some none
  | c :: _ =>
    if isSpaceChar c then
      let r2 := r.dropWhile isSpaceChar
      if r2 = ("check").toList then some (some r2)
      else if r2 = ("checkmate").toList then some (some r2)
      else none
    else none

/-- Square followed by the end-of-pattern check group. -/
def sqCheck (r : List Char) : Option (Char × Char × Option (List Char)) :=
  match matchSquare r with
  | some (a, b, r3) => (tailCheck r3).map (fun g3 => (a, b, g3))
  | none => none

/-- `(?:2|takes)` -/
def connector (r : List Char) : Option (List Char) :=
  match r with
  | '2' :: rest => some rest
  | _ => chopLead (("takes").toList) r

def pieceNameAlts : List (List Char) :=
  [("knight").toList, ("queen").toList, ("king").toList, ("rook").toList,
   ("bishop").toList, ("pawn").toList]

/-- First alternative of the piece-name group that matches at the head (no
two alternatives can match the same input). -/
def tryPieceNames : List (List Char) → List Char → Option (List Char × List Char)
  | [], _ => none
  | p :: ps, s =>
    match chopLead p s with
    | some r => some (p, r)
    | none => tryPieceNames ps s

/-- Groups of a successful pattern match: captured piece group, destination
file and rank, captured check word. -/
abbrev PatGroups := Option (List Char) × Char × Char × Option (List Char)

/-- `/^(knight|queen|king|rook|bishop|pawn)?\s*(?:2|takes)\s*([a-h][1-8])(?:\s+(check|checkmate))?$/` -/
def p1 (s : List Char) : Option PatGroups :=
  let afterP : List Char → Option (Char × Char × Option (List Char)) := fun r =>
    match connector (r.dropWhile isSpaceChar) with
    | some r2 => sqCheck (r2.dropWhile isSpaceChar)
    | none => none
  match tryPieceNames pieceNameAlts s with
  | some (p, r) =>
    match afterP r with
    | some (a, b, g3) => some (some p, a, b, g3)
    | none => (afterP s).map (fun x => (none, x.1, x.2.1, x.2.2))
  | none => (afterP s).map (fun x => (none, x.1, x.2.1, x.2.2))

/-- `/^([a-h])(?:takes\s*)?([a-h][1-8])(?:\s+(check|checkmate))?$/` -/
def p2 (s : List Char) : Option PatGroups :=
  match s with
  | c :: rest =>
    if isFileChar c then
      match (match chopLead (("takes").toList) rest with
             | some r => sqCheck (r.dropWhile isSpaceChar)
             | none => none) with
      | some (a, b, g3) => some (some [c], a, b, g3)
      | none => (sqCheck rest).map (fun x => (some [c], x.1, x.2.1, x.2.2))
    else none
  | [] => none

/-- `(?:takes\s*|x\s*)?` then square then end group. -/
def p3opt (r : List Char) : Option (Char × Char × Option (List Char)) :=
  (match chopLead (("takes").toList) r with
   | some r2 => sqCheck (r2.dropWhile isSpaceChar)
   | none => none) <|>
  (match r with
   | 'x' :: r2 => sqCheck (r2.dropWhile isSpaceChar)
   | _ => none) <|>
  sqCheck r

/-- `/^([nqkrb])?(?:takes\s*|x\s*)?([a-h][1-8])(?:\s+(check|checkmate))?$/` -/
def p3 (s : List Char) : Option PatGroups :=
  match s with
  | c :: rest =>
    if c = 'n' ∨ c = 'q' ∨ c = 'k' ∨ c = 'r' ∨ c = 'b' then
      match p3opt rest with
      | some (a, b, g3) => some (some [c], a, b, g3)
      | none => (p3opt s).map (fun x => (none, x.1, x.2.1, x.2.2))
    else (p3opt s).map (fun x => (none, x.1, x.2.1, x.2.2))
  | [] => none

/-- The pattern loop of `parseStandardMove`: first matching pattern wins. -/
def patMatch (s : List Char) : Option PatGroups :=
  (p1 s) <|> (p2 s) <|> (p3 s)

/-- `match[1] ? this.pieceSymbols[match[1]] || match[1].toUpperCase() : ''` —
the empty-string symbol of `pawn` is falsy, so `||` falls back to the
upper-cased group (yielding `PAWN`); a group absent from the table
(a file letter of pattern 2, an abbreviation of pattern 3) is upper-cased. -/
def pieceOf (g1 : Option (List Char)) : List Char :=
  match g1 with
  | none => []
  | some m1 =>
    match findPair m1 pieceSymbols with
    | some v => if v = [] then m1.map jsToUpper else v
    | none => m1.map jsToUpper

/-- `match[3] === 'check' ? '+' : match[3] === 'checkmate' ? '#' : ''` -/
def checkOf (g3 : Option (List Char)) : List Char :=
  if g3 = some (("check").toList) then ['+']
  else if g3 = some (("checkmate").toList) then ['#']
  else []

/-- `context && context.legalMoves.includes(san)` -/
def validatedB (san : List Char) (ctx : Option ParseContext) : Bool :=
  match ctx with
  | some c => c.legalMoves.contains san
  | none => false

def parseStandardMove (cleaned : List Char) (ctx : Option ParseContext) :
    ChessMoveResult :=
  match patMatch cleaned with
  | some (g1, a, b, g3) =>
    if validatedB (pieceOf g1 ++ a :: b :: checkOf g3) ctx then
      ⟨some (pieceOf g1 ++ a :: b :: checkOf g3), mkRat 9 10, cleaned, none⟩
    else
      ⟨some (pieceOf g1 ++ a :: b :: checkOf g3), mkRat 7 10, cleaned, none⟩
  | none => ⟨none, 0, cleaned, none⟩

/-! ## `parseCastling` -/

/-- `String.prototype.includes`. -/
def substrB (needle hay : List Char) : Bool :=
  hay.tails.any (fun t => (chopLead needle t).isSome)

def parseCastling (cleaned : List Char) (_ctx : Option ParseContext) :
    ChessMoveResult :=
  if substrB (("castle").toList) cleaned then
    if substrB (("short").toList) cleaned
        || substrB (("king side").toList) cleaned then
      ⟨some (("O-O").toList), mkRat 95 100, cleaned, none⟩
    else if substrB (("long").toList) cleaned
        || substrB (("queen side").toList) cleaned then
      ⟨some (("O-O-O").toList), mkRat 95 100, cleaned, none⟩
    else
      ⟨some (("O-O").toList), mkRat 8 10, cleaned, none⟩
  else ⟨none, 0, cleaned, none⟩

/-! ## `parseWithContext` -/

/-- First match of `/([a-h][1-8])/` anywhere in the input. -/
def firstSquare : List Char → Option (Char × Char)
  | [] => none
  | a :: rest =>
    match rest with
    | b :: _ =>
      if isFileChar a && isRankChar b then some (a, b) else firstSquare rest
    | [] => none

/-- `legalMoves.filter(move => move.includes(destination) && !move.includes('O'))` -/
def ctxCandidates (sq : List Char) (moves : List (List Char)) :
    List (List Char) :=
  moves.filter (fun mv => substrB sq mv && !substrB ['O'] mv)

/-- `this.pieceSymbols[piece]` for the disambiguation loop (every piece the
loop iterates over is present in the table). -/
def symOf (p : List Char) : List Char :=
  match findPair p pieceSymbols with
  | some v => v
  | none => []

/-- `/^[NQKRB]/` -/
def headNQKRB : List Char → Bool
  | c :: _ => c = 'N' || c = 'Q' || c = 'K' || c = 'R' || c = 'B'
  | [] => false

/-- The disambiguation loop of `parseWithContext`.  Note the source iterates
over `['knight', 'queen', 'king', 'rook', 'bishop']` only — `pawn` is
absent, so the `symbol === ''` branch of the predicate is unreachable. -/
def disambigPieces : List (List Char) :=
  [("knight").toList, ("queen").toList, ("king").toList, ("rook").toList,
   ("bishop").toList]

def pieceLoop (cleaned : List Char) (cands : List (List Char)) :
    List (List Char) → ChessMoveResult
  | [] => ⟨none, 0, cleaned, none⟩
  | p :: ps =>
    if substrB p cleaned then
      match cands.find? (fun mv =>
          (chopLead (symOf p) mv).isSome
          || (symOf p == [] && !headNQKRB mv)) with
      | some mv => ⟨some mv, mkRat 85 100, cleaned, none⟩
      | none => pieceLoop cleaned cands ps
    else pieceLoop cleaned cands ps

def parseWithContext (cleaned : List Char) (ctx : Option ParseContext) :
    ChessMoveResult :=
  match ctx with
  | none => ⟨none, 0, cleaned, none⟩
  | some c =>
    match firstSquare cleaned with
    | none => ⟨none, 0, cleaned, none⟩
    | some (a, b) =>
      match ctxCandidates [a, b] c.legalMoves with
      | [m] => ⟨some m, mkRat 8 10, cleaned, none⟩
      | [] => ⟨none, 0, cleaned, none⟩
      | m1 :: m2 :: ms => pieceLoop cleaned (m1 :: m2 :: ms) disambigPieces

/-! ## `parseMove` -/

def parseMove (transcript : List Char) (ctx : Option ParseContext) :
    ChessMoveResult :=
  let cleaned := cleanTranscriptL transcript
  let r1 := parseStandardMove cleaned ctx
  if jsTruthy r1.san then r1
  else
    let r2 := parseCastling cleaned ctx
    if jsTruthy r2.san then r2
    else
      let r3 := parseWithContext cleaned ctx
      if jsTruthy r3.san then r3
      else ⟨none, 0, transcript, some (("Could not parse chess move").toList)⟩

/-! ## Spoken-phrase formatter (`TTSConfirmation.formatMoveConfirmation`)

The source walks the SAN string with an index `i`, guarding each step with
`san[i]` truthiness; the walk is modelled by threading the remaining
character list through the same sequence of steps. -/

def pieceNameU (c : Char) : List Char :=
  if c = 'N' then ("Knight").toList
  else if c = 'Q' then ("Queen").toList
  else if c = 'K' then ("King").toList
  else if c = 'R' then ("Rook").toList
  else ("Bishop").toList

/-- Lowercase promotion piece names; a key absent from the object yields
`undefined`, which the template literal renders as the string `undefined`. -/
def promoNameL (c : Char) : List Char :=
  if c = 'N' then ("knight").toList
  else if c = 'Q' then ("queen").toList
  else if c = 'R' then ("rook").toList
  else if c = 'B' then ("bishop").toList
  else ("undefined").toList

def formatMoveConfirmation (san : List Char) : List Char :=
  if san = ("O-O").toList then ("Short castle confirmed").toList
  else if san = ("O-O-O").toList then ("Long castle confirmed").toList
  else
    -- piece (absence implies pawn)
    let st1 : List Char × List Char :=
      match san with
      | c :: rest =>
        if c = 'N' ∨ c = 'Q' ∨ c = 'K' ∨ c = 'R' ∨ c = 'B' then
          (pieceNameU c, rest)
        else (("Pawn").toList, san)
      | [] => (("Pawn").toList, [])
    -- disambiguation (file or rank)
    let st2 : List Char × List Char :=
      match st1.2 with
      | c :: r =>
        if isFileChar c then
          (st1.1 ++ (" on ").toList ++ [c] ++ ("-file").toList, r)
        else if isRankChar c then
          (st1.1 ++ (" on rank ").toList ++ [c], r)
        else st1
      | [] => st1
    -- capture
    let st3 : List Char × List Char :=
      match st2.2 with
      | 'x' :: r => (st2.1 ++ (" takes").toList, r)
      | _ => (st2.1 ++ (" to").toList, st2.2)
    -- destination square (two further characters, whatever they are)
    let st4 : List Char × List Char :=
      match st3.2 with
      | a :: b :: r => (st3.1 ++ [' ', a, '-', b], r)
      | _ => st3
    -- promotion
    let st5 : List Char × List Char :=
      match st4.2 with
      | '=' :: c :: r => (st4.1 ++ (", promotes to ").toList ++ promoNameL c, r)
      | '=' :: [] => (st4.1, [])
      | _ => st4
    -- check / checkmate
    let res : List Char :=
      match st5.2 with
      | '+' :: _ => st5.1 ++ (", check").toList
      | '#' :: _ => st5.1 ++ (", checkmate").toList
      | _ => st5.1
    res ++ (" confirmed").toList

/-! ## Claim vocabulary

`sanDestinationSpec` formalizes the spec's notion of the destination square
of a SAN move (§3: piece letter, optional disambiguator, optional capture
marker, destination square, optional promotion, optional check/mate suffix):
strip a trailing check/mate marker and a promotion suffix, then read the
final file-rank pair.  It is used only to state the destination-square
premise of claim C1. -/
def sanDestinationSpec (m : List Char) : Option (Char × Char) :=
  let r1 := m.reverse
  let r2 := match r1 with
    | c :: rest => if c = '+' ∨ c = '#' then rest else r1
    | [] => r1
  let r3 := match r2 with
    | _ :: '=' :: rest => rest
    | _ => r2
  match r3 with
  | b :: a :: _ => if isFileChar a && isRankChar b then some (a, b) else none
  | _ => none

/-- The initial-position FEN used by the repository's tests. -/
def fenStart : List Char :=
  ("rnbqkbnr/pppppppp/8/8/8/8/PPPPPPPP/RNBQKBNR w KQkq - 0 1").toList

/-- The `ParseContext` of `tests/MoveParser.test.ts`. -/
def testContext : ParseContext :=
  ⟨fenStart,
   [("e4"), ("e3"), ("Nf3"), ("Nc3"), ("d4"), ("d3"), ("Nh3"), ("Na3"),
    ("f4"), ("f3"), ("g4"), ("g3"), ("h4"), ("h3"), ("a4"), ("a3"),
    ("b4"), ("b3"), ("c4"), ("c3")].map String.toList,
   none, PlayerColor.white⟩

/-! ## Infrastructure lemmas -/

theorem findPair_mem {α β : Type} [DecidableEq α] {k : α} {v : β}
    {l : List (α × β)} (h : findPair k l = some v) : (k, v) ∈ l := by
  induction l with
  | nil => simp [findPair] at h
  | cons p rest ih =>
    obtain ⟨k2, v2⟩ := p
    by_cases hk : k = k2
    · subst hk
      simp [findPair] at h
      simp [h]
    · simp [findPair, hk] at h
      exact List.mem_cons_of_mem _ (ih h)

theorem jsTruthy_none : jsTruthy none = false := rfl

theorem jsTruthy_some {m : List Char} (h : m ≠ []) :
    jsTruthy (some m) = true := by
  cases m with
  | nil => exact absurd rfl h
  | cons a l => rfl

theorem chopLead_isSome_ne_nil {p m : List Char} (hp : p ≠ [])
    (h : (chopLead p m).isSome = true) : m ≠ [] := by
  cases p with
  | nil => exact absurd rfl hp
  | cons a ps =>
    cases m with
    | nil => simp [chopLead] at h
    | cons b ms => exact List.cons_ne_nil b ms

theorem substrB_ne_nil {sq m : List Char} (hsq : sq ≠ [])
    (h : substrB sq m = true) : m ≠ [] := by
  intro hm
  subst hm
  cases sq with
  | nil => exact hsq rfl
  | cons a ps => simp [substrB, List.tails, chopLead] at h

/-- Common shape of every strategy result: a failure carrying zeros, or a
success with a nonempty san and positive confidence; `originalText` is the
cleaned input either way. -/
def stratSpec (r : ChessMoveResult) (s : List Char) : Prop :=
  r = ⟨none, 0, s, none⟩ ∨
    ∃ m q, r = ⟨some m, q, s, none⟩ ∧ m ≠ [] ∧ 0 < q

theorem parseStandardMove_spec (s : List Char) (ctx : Option ParseContext) :
    stratSpec (parseStandardMove s ctx) s := by
  unfold stratSpec parseStandardMove
  split
  · split
    · exact Or.inr ⟨_, _, rfl, by simp, by decide⟩
    · exact Or.inr ⟨_, _, rfl, by simp, by decide⟩
  · exact Or.inl rfl

theorem parseCastling_spec (s : List Char) (ctx : Option ParseContext) :
    stratSpec (parseCastling s ctx) s := by
  unfold stratSpec parseCastling
  split
  · split
    · exact Or.inr ⟨_, _, rfl, by decide, by decide⟩
    · split
      · exact Or.inr ⟨_, _, rfl, by decide, by decide⟩
      · exact Or.inr ⟨_, _, rfl, by decide, by decide⟩
  · exact Or.inl rfl

theorem pieceLoop_spec (cleaned : List Char) (cands : List (List Char))
    (hc : ∀ m ∈ cands, m ≠ []) (ps : List (List Char)) :
    stratSpec (pieceLoop cleaned cands ps) cleaned := by
  induction ps with
  | nil => exact Or.inl rfl
  | cons p ps ih =>
    unfold pieceLoop
    split
    · cases hf : cands.find? (fun mv =>
          (chopLead (symOf p) mv).isSome
          || (symOf p == [] && !headNQKRB mv)) with
      | none => exact ih
      | some mv =>
        exact Or.inr ⟨_, _, rfl, hc mv (List.mem_of_find?_eq_some hf),
          by decide⟩
    · exact ih

theorem ctxCandidates_ne_nil {sq : List Char} (hsq : sq ≠ [])
    {moves : List (List Char)} : ∀ m ∈ ctxCandidates sq moves, m ≠ [] := by
  intro m hm
  have := (List.mem_filter.mp hm).2
  have h1 : substrB sq m = true := by
    cases hs : substrB sq m
    · simp [hs] at this
    · rfl
  exact substrB_ne_nil hsq h1

theorem parseWithContext_spec (s : List Char) (ctx : Option ParseContext) :
    stratSpec (parseWithContext s ctx) s := by
  unfold stratSpec parseWithContext
  cases ctx with
  | none => exact Or.inl rfl
  | some c =>
    dsimp only
    cases hq : firstSquare s with
    | none => exact Or.inl rfl
    | some ab =>
      obtain ⟨a, b⟩ := ab
      dsimp only
      have hab : ([a, b] : List Char) ≠ [] := by simp
      cases hcand : ctxCandidates [a, b] c.legalMoves with
      | nil => exact Or.inl rfl
      | cons m1 ms =>
        cases ms with
        | nil =>
          refine Or.inr ⟨_, _, rfl, ?_, by decide⟩
          refine @ctxCandidates_ne_nil [a, b] hab c.legalMoves m1 ?_
          rw [hcand]
          exact List.mem_cons_self m1 []
        | cons m2 ms2 =>
          have hlp := pieceLoop_spec s (m1 :: m2 :: ms2)
            (fun m hm =>
              @ctxCandidates_ne_nil [a, b] hab c.legalMoves m
                (by rw [hcand]; exact hm))
            disambigPieces
          unfold stratSpec at hlp
          exact hlp

/-- Global shape of a `parseMove` result: the all-strategies-failed record
(raw transcript, error message), or a strategy success (nonempty san,
positive confidence, normalized transcript, no error). -/
theorem parseMove_spec (t : List Char) (ctx : Option ParseContext) :
    parseMove t ctx
      = ⟨none, 0, t, some (("Could not parse chess move").toList)⟩ ∨
    ∃ m q, parseMove t ctx = ⟨some m, q, cleanTranscriptL t, none⟩
      ∧ m ≠ [] ∧ 0 < q := by
  simp only [parseMove]
  rcases parseStandardMove_spec (cleanTranscriptL t) ctx with h1 | ⟨m, q, h1, hm, hq⟩
  · rw [h1]
    rcases parseCastling_spec (cleanTranscriptL t) ctx with h2 | ⟨m, q, h2, hm, hq⟩
    · rw [h2]
      rcases parseWithContext_spec (cleanTranscriptL t) ctx with h3 | ⟨m, q, h3, hm, hq⟩
      · rw [h3]
        exact Or.inl rfl
      · rw [h3]
        simp only [jsTruthy_none, jsTruthy_some hm, if_true, if_false,
          Bool.false_eq_true]
        exact Or.inr ⟨m, q, by simp, hm, hq⟩
    · rw [h2]
      simp only [jsTruthy_none, jsTruthy_some hm, if_true, if_false,
        Bool.false_eq_true]
      exact Or.inr ⟨m, q, by simp, hm, hq⟩
  · rw [h1]
    simp only [jsTruthy_some hm, if_true]
    exact Or.inr ⟨m, q, by simp, hm, hq⟩

/-! ## Claims -/

/-- C8: for every transcript and every (possibly absent) context, the result
of `parseMove` has `san = null` if and only if its confidence is `0`:
successes carry strictly positive confidence, failures exactly `0`. -/
theorem c8_san_none_iff_confidence_zero (t : List Char)
    (ctx : Option ParseContext) :
    (parseMove t ctx).san = none ↔ (parseMove t ctx).confidence = 0 := by
  rcases parseMove_spec t ctx with h | ⟨m, q, h, hm, hq⟩
  · rw [h]
    exact ⟨fun _ => rfl, fun _ => rfl⟩
  · rw [h]
    constructor
    · intro hs
      exact absurd hs (by simp)
    · intro hc
      exact absurd hc.symm (ne_of_lt hq)

/-- Witness for C8 at a concrete transcript and context. -/
theorem c8_witness :
    (parseMove (("e4").toList) (some testContext)).san = none ↔
      (parseMove (("e4").toList) (some testContext)).confidence = 0 :=
  c8_san_none_iff_confidence_zero (("e4").toList) (some testContext)

/-- C9: whenever every strategy fails to produce a san, `parseMove` returns
exactly the failure record: null san, confidence 0, the error message
`Could not parse chess move`, and the original transcript. -/
theorem c9_all_strategies_fail (t : List Char) (ctx : Option ParseContext)
    (h1 : (parseStandardMove (cleanTranscriptL t) ctx).san = none)
    (h2 : (parseCastling (cleanTranscriptL t) ctx).san = none)
    (h3 : (parseWithContext (cleanTranscriptL t) ctx).san = none) :
    parseMove t ctx
      = ⟨none, 0, t, some (("Could not parse chess move").toList)⟩ := by
  simp only [parseMove]
  rw [h1, h2, h3]
  simp only [jsTruthy_none, Bool.false_eq_true, if_false]

/-- Witness for C9: the transcript `gibberish nonsense` defeats every
strategy and yields the failure record. -/
theorem c9_all_strategies_fail_witness :
    parseMove (("gibberish nonsense").toList) (some testContext)
      = ⟨none, 0, ("gibberish nonsense").toList,
          some (("Could not parse chess move").toList)⟩ :=
  c9_all_strategies_fail (("gibberish nonsense").toList) (some testContext)
    (by decide) (by decide) (by decide)

/-- C10: on success `originalText` holds the normalized transcript; only the
all-strategies-failed record carries the raw transcript. -/
theorem c10_originalText_normalized_on_success (t : List Char)
    (ctx : Option ParseContext) :
    (parseMove t ctx).originalText
      = if jsTruthy (parseMove t ctx).san then cleanTranscriptL t else t := by
  rcases parseMove_spec t ctx with h | ⟨m, q, h, hm, hq⟩
  · rw [h]
    rfl
  · rw [h]
    simp [jsTruthy_some hm]

/-- Witness for C10 at a concrete successful parse. -/
theorem c10_witness :
    (parseMove (("knight to f3").toList) (some testContext)).originalText
      = if jsTruthy (parseMove (("knight to f3").toList)
            (some testContext)).san
        then cleanTranscriptL (("knight to f3").toList)
        else ("knight to f3").toList :=
  c10_originalText_normalized_on_success (("knight to f3").toList)
    (some testContext)

/-- The context of claim C1's counterexample: exactly one legal move,
`Nxe4`, whose destination is the spoken square `e4`. -/
def c1ctx : ParseContext :=
  ⟨fenStart, [("Nxe4").toList], none, PlayerColor.white⟩

/-- C1 as stated is false: with transcript `e4` and legal moves `[Nxe4]`,
exactly one legal move has destination `e4` (the spoken square), yet
`parseMove` does not return `Nxe4` with confidence at least 0.80 — the
standard-pattern strategy fires first and returns the unvalidated `e4`
with confidence 0.7. -/
theorem c1_claim_counterexample :
    (c1ctx.legalMoves.countP
        (fun mv => sanDestinationSpec mv == some ('e', '4')) = 1)
    ∧ firstSquare (cleanTranscriptL (("e4").toList)) = some ('e', '4')
    ∧ parseMove (("e4").toList) (some c1ctx)
        = ⟨some (("e4").toList), mkRat 7 10, ("e4").toList, none⟩
    ∧ ¬ ((parseMove (("e4").toList) (some c1ctx)).san = some (("Nxe4").toList)
          ∧ mkRat 8 10 ≤ (parseMove (("e4").toList) (some c1ctx)).confidence) := by
  decide

/-- C1 amended: when the standard-pattern and castling strategies both fail
on the normalized transcript, the normalized transcript contains a square
token, and exactly one legal move contains that (first) square as a
substring while containing no `O`, then `parseMove` returns that move with
confidence exactly 0.8. -/
theorem c1_amended_unique_candidate (t : List Char) (c : ParseContext)
    (a b : Char) (m : List Char)
    (h1 : (parseStandardMove (cleanTranscriptL t) (some c)).san = none)
    (h2 : (parseCastling (cleanTranscriptL t) (some c)).san = none)
    (h3 : firstSquare (cleanTranscriptL t) = some (a, b))
    (h4 : ctxCandidates [a, b] c.legalMoves = [m]) :
    parseMove t (some c)
      = ⟨some m, mkRat 8 10, cleanTranscriptL t, none⟩ := by
  have hm : m ≠ [] :=
    @ctxCandidates_ne_nil [a, b] (by simp) c.legalMoves m
      (by rw [h4]; exact List.mem_cons_self m [])
  have hw : parseWithContext (cleanTranscriptL t) (some c)
      = ⟨some m, mkRat 8 10, cleanTranscriptL t, none⟩ := by
    unfold parseWithContext
    dsimp only
    rw [h3]
    dsimp only
    rw [h4]
  simp only [parseMove]
  rw [h1, h2, hw]
  simp [jsTruthy_none, jsTruthy_some hm]

/-- Witness for the amended C1: `uh e4 ok` defeats the first two strategies,
and `Nxe4` is the unique legal move containing the spoken square `e4`. -/
theorem c1_amended_unique_candidate_witness :
    parseMove (("uh e4 ok").toList) (some c1ctx)
      = ⟨some (("Nxe4").toList), mkRat 8 10,
          cleanTranscriptL (("uh e4 ok").toList), none⟩ :=
  c1_amended_unique_candidate (("uh e4 ok").toList) c1ctx 'e' '4'
    (("Nxe4").toList) (by decide) (by decide) (by decide) (by decide)

/-- The castling context of `tests/MoveParser.test.ts` (claim C3). -/
def c3ctx : ParseContext :=
  ⟨fenStart, [("O-O").toList, ("O-O-O").toList], none, PlayerColor.white⟩

/-- C3 fails on the code: the homophone entry `castle ↦ rook` rewrites the
castling keyword during normalization (`castle short` becomes `rook short`,
`castle queen side` becomes `rook queen side`), so `parseCastling` never
sees `castle` and `parseMove` returns the failure record instead of
`O-O` / `O-O-O`. -/
theorem c3_code_bug_eval :
    cleanTranscriptL (("castle short").toList) = ("rook short").toList
    ∧ parseMove (("castle short").toList) (some c3ctx)
        = ⟨none, 0, ("castle short").toList,
            some (("Could not parse chess move").toList)⟩
    ∧ cleanTranscriptL (("castle queen side").toList)
        = ("rook queen side").toList
    ∧ parseMove (("castle queen side").toList) (some c3ctx)
        = ⟨none, 0, ("castle queen side").toList,
            some (("Could not parse chess move").toList)⟩ := by
  decide

/-- The capture context of `tests/MoveParser.test.ts` (claim C4). -/
def c4ctx : ParseContext :=
  ⟨fenStart, [("exd5").toList, ("Nxd5").toList, ("Qxd5").toList],
   none, PlayerColor.white⟩

/-- C4 fails on the code: `pieceSymbols['pawn']` is the empty string, which
is falsy, so `|| match[1].toUpperCase()` produces `PAWN` and the assembled
san is `PAWNd5` (unvalidated, confidence 0.7) rather than `exd5`. -/
theorem c4_code_bug_eval :
    parseMove (("pawn takes d5").toList) (some c4ctx)
      = ⟨some (("PAWNd5").toList), mkRat 7 10, ("pawn takes d5").toList,
          none⟩
    ∧ (parseMove (("pawn takes d5").toList) (some c4ctx)).san
        ≠ some (("exd5").toList) := by
  decide

/-- C5 fails on the code: on `e8=Q` the disambiguation step of
`formatMoveConfirmation` consumes the pawn's destination file `e` as an
`on e-file` disambiguator, after which the destination step prints `8-=`
and the promotion suffix is never recognized. -/
theorem c5_code_bug_eval :
    formatMoveConfirmation (("e8=Q").toList)
      = ("Pawn on e-file to 8-= confirmed").toList
    ∧ formatMoveConfirmation (("e8=Q").toList)
        ≠ ("Pawn to e-8, promotes to queen confirmed").toList := by
  decide

/-- C6 fails on the code: the stop-word entries of the homophone table map
to the empty string, which is falsy, so `this.homophones[word] || word`
yields the original word and no stop-word is ever dropped. -/
theorem c6_code_bug_eval :
    cleanTranscript ("move the knight to f3") = ("move the knight 2 f3")
    ∧ cleanTranscript ("move the knight to f3") ≠ ("knight 2 f3")
    ∧ cleanTranscript ("the") = ("the") := by
  decide

/-- The two-candidate capture context of claim C7. -/
def c7ctx : ParseContext :=
  ⟨fenStart, [("exd5").toList, ("Nxd5").toList], none, PlayerColor.white⟩

/-- C7 fails on the code: with transcript `pawn d5` the context strategy
finds the two candidates `exd5` and `Nxd5` for the spoken square `d5`, and
the normalized text contains the piece token `pawn`; but the disambiguation
loop iterates only over knight/queen/king/rook/bishop, so the pawn branch
of its predicate is unreachable and `parseMove` returns the failure record
instead of `exd5` with confidence 0.85. -/
theorem c7_code_bug_eval :
    substrB (("pawn").toList) (cleanTranscriptL (("pawn d5").toList)) = true
    ∧ firstSquare (cleanTranscriptL (("pawn d5").toList)) = some ('d', '5')
    ∧ (ctxCandidates [('d'), ('5')] c7ctx.legalMoves).length = 2
    ∧ parseMove (("pawn d5").toList) (some c7ctx)
        = ⟨none, 0, ("pawn d5").toList,
            some (("Could not parse chess move").toList)⟩ := by
  decide

/-- C2 as stated is false: normalization is not idempotent.  `bee`
normalizes to the canonical file letter `b`, but `b` is itself a homophone
key (for `bishop`), so a second normalization yields `bishop`. -/
theorem c2_idempotence_counterexample :
    cleanTranscript (cleanTranscript ("bee")) ≠ cleanTranscript ("bee")
    ∧ cleanTranscript ("bee") = ("b")
    ∧ cleanTranscript (cleanTranscript ("bee")) = ("bishop") := by
  decide

/-! ## Idempotence analysis of the normalization pipeline (claim C2) -/

/-- `jsToLower` is idempotent: its outputs are never uppercase. -/
theorem jsToLower_fix (c : Char) : jsToLower (jsToLower c) = jsToLower c := by
  cases hf : findPair c ucPairs with
  | none =>
    have h1 : jsToLower c = c := by unfold jsToLower; rw [hf]
    rw [h1]
    exact h1
  | some l =>
    have h1 : jsToLower c = l := by unfold jsToLower; rw [hf]
    have hm : (c, l) ∈ ucPairs := findPair_mem hf
    have hv : ∀ p ∈ ucPairs, jsToLower p.2 = p.2 := by decide
    rw [h1]
    exact hv (c, l) hm

/-- Characters of a normalized token: word characters, not whitespace,
fixed points of lowercasing. -/
def goodWord (w : List Char) : Prop :=
  ∀ c ∈ w, isWordChar c = true ∧ isSpaceChar c = false ∧ jsToLower c = c

instance goodWordDecidable (w : List Char) : Decidable (goodWord w) := by
  unfold goodWord
  infer_instance

theorem splitAllSp_ne_nil (l : List Char) : splitAllSp l ≠ [] := by
  cases l with
  | nil => simp [splitAllSp]
  | cons c l =>
    unfold splitAllSp
    split
    · split <;> simp
    · split <;> simp

theorem splitAllSp_cons_space {c : Char} (l : List Char)
    (h : isSpaceChar c = true) :
    splitAllSp (c :: l) = [] :: splitAllSp l := by
  cases hl : splitAllSp l with
  | nil => exact absurd hl (splitAllSp_ne_nil l)
  | cons p ps =>
    rw [splitAllSp, hl]
    simp [h]

theorem splitAllSp_cons_word {c : Char} (l : List Char)
    (h : isSpaceChar c = false) :
    ∃ p ps, splitAllSp l = p :: ps ∧ splitAllSp (c :: l) = (c :: p) :: ps := by
  cases hl : splitAllSp l with
  | nil => exact absurd hl (splitAllSp_ne_nil l)
  | cons p ps =>
    refine ⟨p, ps, rfl, ?_⟩
    rw [splitAllSp, hl]
    simp [h]

/-- Every character of every piece produced by `splitAllSp` is a
non-whitespace character of the input. -/
theorem splitAllSp_chars (l : List Char) :
    ∀ w ∈ splitAllSp l, ∀ c ∈ w, c ∈ l ∧ isSpaceChar c = false := by
  induction l with
  | nil =>
    intro w hw c hc
    simp [splitAllSp] at hw
    subst hw
    simp at hc
  | cons d l ih =>
    intro w hw c hc
    cases hd : isSpaceChar d with
    | true =>
      rw [splitAllSp_cons_space l hd] at hw
      rcases List.mem_cons.mp hw with hw | hw
      · subst hw
        simp at hc
      · obtain ⟨hmem, hsp⟩ := ih w hw c hc
        exact ⟨List.mem_cons_of_mem d hmem, hsp⟩
    | false =>
      obtain ⟨p, ps, hl, hcons⟩ := splitAllSp_cons_word l hd
      rw [hcons] at hw
      rcases List.mem_cons.mp hw with hw | hw
      · subst hw
        rcases List.mem_cons.mp hc with hc | hc
        · subst hc
          exact ⟨List.mem_cons_self _ _, hd⟩
        · obtain ⟨hmem, hsp⟩ := ih p (by rw [hl]; exact List.mem_cons_self p ps) c hc
          exact ⟨List.mem_cons_of_mem d hmem, hsp⟩
      · obtain ⟨hmem, hsp⟩ := ih w (by rw [hl]; exact List.mem_cons_of_mem p hw) c hc
        exact ⟨List.mem_cons_of_mem d hmem, hsp⟩

/-- Characters surviving the lowercase-and-replace passes are word-or-space
characters and fixed points of lowercasing. -/
theorem replace_chars (l : List Char) :
    ∀ c ∈ replaceNonWord (l.map jsToLower),
      (isWordChar c || isSpaceChar c) = true ∧ jsToLower c = c := by
  intro c hc
  simp only [replaceNonWord, List.map_map, List.mem_map] at hc
  obtain ⟨d, _, rfl⟩ := hc
  simp only [Function.comp]
  unfold replaceChar
  split
  · next h => exact ⟨h, jsToLower_fix d⟩
  · exact ⟨by decide, by decide⟩

/-- Every normalized token is nonempty and consists of good characters:
either it is a homophone value (checked over the finite table) or it is a
token of the cleaned character stream. -/
theorem cleanTokens_good (l : List Char) :
    ∀ w ∈ cleanTokens l, w ≠ [] ∧ goodWord w := by
  intro w hw
  unfold cleanTokens at hw
  obtain ⟨hw, hne⟩ := List.mem_filter.mp hw
  have hne2 : w ≠ [] := by
    intro h
    subst h
    simp at hne
  refine ⟨hne2, ?_⟩
  obtain ⟨w0, hw0, rfl⟩ := List.mem_map.mp hw
  cases hf : findPair w0 homophones with
  | none =>
    have heq : substTok w0 = w0 := by unfold substTok; rw [hf]
    rw [heq]
    intro c hc
    have h0 := (splitAllSp_chars _ w0 hw0 c hc).1
    have hsp := (splitAllSp_chars _ w0 hw0 c hc).2
    have h1 := replace_chars l c h0
    refine ⟨?_, hsp, h1.2⟩
    rcases Bool.or_eq_true_iff.mp h1.1 with h2 | h2
    · exact h2
    · rw [h2] at hsp
      exact absurd hsp (by simp)
  | some v =>
    by_cases hv : v = []
    · have heq : substTok w0 = w0 := by
        unfold substTok
        rw [hf]
        simp [hv]
      rw [heq]
      intro c hc
      have h0 := (splitAllSp_chars _ w0 hw0 c hc).1
      have hsp := (splitAllSp_chars _ w0 hw0 c hc).2
      have h1 := replace_chars l c h0
      refine ⟨?_, hsp, h1.2⟩
      rcases Bool.or_eq_true_iff.mp h1.1 with h2 | h2
      · exact h2
      · rw [h2] at hsp
        exact absurd hsp (by simp)
    · have heq : substTok w0 = v := by
        unfold substTok
        rw [hf]
        simp [hv]
      rw [heq]
      have hval : ∀ p ∈ homophones, goodWord p.2 := by decide
      exact hval (w0, v) (findPair_mem hf)

theorem joinSp_chars (ws : List (List Char)) :
    ∀ c ∈ joinSp ws, c = ' ' ∨ ∃ w ∈ ws, c ∈ w := by
  induction ws with
  | nil =>
    intro c hc
    simp [joinSp] at hc
  | cons w ws ih =>
    intro c hc
    cases ws with
    | nil =>
      right
      exact ⟨w, List.mem_cons_self _ _, hc⟩
    | cons v vs =>
      rw [joinSp] at hc
      rcases List.mem_append.mp hc with hc | hc
      · right
        exact ⟨w, List.mem_cons_self _ _, hc⟩
      · rcases List.mem_cons.mp hc with hc | hc
        · left
          exact hc
        · rcases ih c hc with hc2 | ⟨u, hu, hcu⟩
          · left
            exact hc2
          · right
            exact ⟨u, List.mem_cons_of_mem _ hu, hcu⟩

theorem map_id_on {α : Type} (f : α → α) (l : List α)
    (h : ∀ c ∈ l, f c = c) : l.map f = l := by
  induction l with
  | nil => rfl
  | cons a l ih =>
    rw [List.map_cons, h a (List.mem_cons_self _ _),
      ih (fun c hc => h c (List.mem_cons_of_mem a hc))]

theorem splitAllSp_word {w : List Char} (hw : w ≠ [])
    (hns : ∀ c ∈ w, isSpaceChar c = false) : splitAllSp w = [w] := by
  induction w with
  | nil => exact absurd rfl hw
  | cons c w ih =>
    cases w with
    | nil =>
      rw [splitAllSp]
      simp [hns c (List.mem_cons_self _ _), splitAllSp]
    | cons d w2 =>
      obtain ⟨p, ps, hl, hcons⟩ :=
        splitAllSp_cons_word (d :: w2) (hns c (List.mem_cons_self _ _))
      rw [hcons]
      rw [ih (by simp) (fun e he => hns e (List.mem_cons_of_mem c he))] at hl
      injection hl with h1 h2
      rw [← h1, ← h2]

theorem splitAllSp_word_sep {w rest : List Char} (hw : w ≠ [])
    (hns : ∀ c ∈ w, isSpaceChar c = false) :
    splitAllSp (w ++ ' ' :: rest) = w :: splitAllSp rest := by
  induction w with
  | nil => exact absurd rfl hw
  | cons c w ih =>
    cases w with
    | nil =>
      have h1 : splitAllSp (' ' :: rest) = [] :: splitAllSp rest :=
        splitAllSp_cons_space rest (by decide)
      obtain ⟨p, ps, hl, hcons⟩ :=
        splitAllSp_cons_word (' ' :: rest) (hns c (List.mem_cons_self _ _))
      rw [List.singleton_append, hcons]
      rw [h1] at hl
      injection hl with h2 h3
      rw [← h2, ← h3]
    | cons d w2 =>
      have ih2 := ih (by simp) (fun e he => hns e (List.mem_cons_of_mem c he))
      obtain ⟨p, ps, hl, hcons⟩ :=
        splitAllSp_cons_word ((d :: w2) ++ ' ' :: rest)
          (hns c (List.mem_cons_self _ _))
      rw [List.cons_append, hcons]
      rw [ih2] at hl
      injection hl with h2 h3
      rw [← h2, ← h3]

theorem splitAllSp_joinSp {ws : List (List Char)} (hne : ws ≠ [])
    (hgood : ∀ w ∈ ws, w ≠ [] ∧ ∀ c ∈ w, isSpaceChar c = false) :
    splitAllSp (joinSp ws) = ws := by
  induction ws with
  | nil => exact absurd rfl hne
  | cons w ws ih =>
    cases ws with
    | nil =>
      rw [joinSp]
      exact splitAllSp_word (hgood w (List.mem_cons_self _ _)).1
        (hgood w (List.mem_cons_self _ _)).2
    | cons v vs =>
      rw [joinSp.eq_3]
      rw [splitAllSp_word_sep (hgood w (List.mem_cons_self _ _)).1
        (hgood w (List.mem_cons_self _ _)).2]
      rw [ih (by simp) (fun u hu => hgood u (List.mem_cons_of_mem w hu))]

/-- A token produced by `substTok` whose value is neither `b` nor `castle`
is a fixed point of `substTok`: every other homophone value maps to itself
(checked over the finite table), and non-keys are untouched. -/
theorem substTok_image_fix {w : List Char}
    (hb : substTok w ≠ ("b").toList)
    (hc : substTok w ≠ ("castle").toList) :
    substTok (substTok w) = substTok w := by
  cases hf : findPair w homophones with
  | none =>
    have h1 : substTok w = w := by unfold substTok; rw [hf]
    rw [h1]
    exact h1
  | some v =>
    by_cases hv : v = []
    · have h1 : substTok w = w := by
        unfold substTok
        rw [hf]
        simp [hv]
      rw [h1]
      exact h1
    · have h1 : substTok w = v := by
        unfold substTok
        rw [hf]
        simp [hv]
      rw [h1] at hb hc ⊢
      have key : ∀ p ∈ homophones,
          p.2 = [] ∨ p.2 = ("b").toList ∨ p.2 = ("castle").toList
            ∨ substTok p.2 = p.2 := by decide
      rcases key (w, v) (findPair_mem hf) with h | h | h | h
      · exact absurd h hv
      · exact absurd h hb
      · exact absurd h hc
      · exact h

theorem filter_map_subst_id (ts : List (List Char))
    (h : ∀ w ∈ ts, substTok w = w ∧ w ≠ []) :
    (ts.map substTok).filter (fun w => !w.isEmpty) = ts := by
  induction ts with
  | nil => rfl
  | cons w ts ih =>
    rw [List.map_cons, List.filter_cons]
    rw [(h w (List.mem_cons_self _ _)).1]
    have hne : (!w.isEmpty) = true := by
      have h2 := (h w (List.mem_cons_self _ _)).2
      cases w with
      | nil => exact absurd rfl h2
      | cons a l => rfl
    rw [hne]
    simp only [if_true]
    rw [ih (fun u hu => h u (List.mem_cons_of_mem w hu))]

/-- Every normalized token is in the image of `substTok`. -/
theorem cleanTokens_mem_image {l w : List Char} (h : w ∈ cleanTokens l) :
    ∃ w0, w = substTok w0 := by
  unfold cleanTokens at h
  obtain ⟨hm, _⟩ := List.mem_filter.mp h
  obtain ⟨w0, _, hw0⟩ := List.mem_map.mp hm
  exact ⟨w0, hw0.symm⟩

/-- C2 amended: normalization is idempotent on every transcript whose
normalized token stream contains neither `b` nor `castle` — the only two
homophone values that are themselves homophone keys with a different value
(`b ↦ bishop`, `castle ↦ rook`). -/
theorem c2_amended_idempotent_of_stable_tokens (x : List Char)
    (hb : ("b").toList ∉ cleanTokens x)
    (hc : ("castle").toList ∉ cleanTokens x) :
    cleanTranscriptL (cleanTranscriptL x) = cleanTranscriptL x := by
  by_cases hts : cleanTokens x = []
  · have h0 : cleanTranscriptL x = [] := by
      rw [cleanTranscriptL, hts]
      rfl
    rw [h0]
    decide
  · have hgood := cleanTokens_good x
    have hfix : ∀ w ∈ cleanTokens x, substTok w = w := by
      intro w hw
      obtain ⟨w0, rfl⟩ := cleanTokens_mem_image hw
      exact substTok_image_fix (fun h => hb (h ▸ hw)) (fun h => hc (h ▸ hw))
    set ts := cleanTokens x with hts_eq
    have h1 : (joinSp ts).map jsToLower = joinSp ts := by
      refine map_id_on _ _ ?_
      intro c hcm
      rcases joinSp_chars _ c hcm with rfl | ⟨w, hw, hcw⟩
      · decide
      · exact ((hgood w hw).2 c hcw).2.2
    have h2 : replaceNonWord (joinSp ts) = joinSp ts := by
      refine map_id_on _ _ ?_
      intro c hcm
      rcases joinSp_chars _ c hcm with rfl | ⟨w, hw, hcw⟩
      · decide
      · unfold replaceChar
        rw [((hgood w hw).2 c hcw).1]
        rfl
    have h3 : splitAllSp (joinSp ts) = ts :=
      splitAllSp_joinSp hts
        (fun w hw => ⟨(hgood w hw).1, fun c hcw => ((hgood w hw).2 c hcw).2.1⟩)
    have h4 : cleanTokens (joinSp ts) = ts := by
      unfold cleanTokens
      rw [h1, h2, h3]
      exact filter_map_subst_id _
        (fun w hw => ⟨hfix w hw, (hgood w hw).1⟩)
    show joinSp (cleanTokens (joinSp ts)) = joinSp ts
    rw [h4]

/-- Witness for the amended C2 at a concrete transcript whose normalized
tokens avoid `b` and `castle`. -/
theorem c2_amended_witness :
    cleanTranscriptL (cleanTranscriptL (("knight to f3").toList))
      = cleanTranscriptL (("knight to f3").toList) :=
  c2_amended_idempotent_of_stable_tokens (("knight to f3").toList)
    (by decide) (by decide)
